import Mathlib

/-!
# Verification of the transcript-correction core of `src/main.py`

Shallow embedding of the word-correction pipeline of the STT server.
Python strings are modelled as `List Char`; the Python regex character
classes `\w`, `\W`, `\d`, `[a-zA-Z]`, `[a-zA-Z\-]` are modelled on their
ASCII fragment (the inputs of interest are ASCII).  The two regular
expressions of the source are embedded as executable backtracking
matchers that follow Python `re.match` semantics (leftmost anchored
match, greedy quantifiers with backtracking, ordered alternation).

External collaborators (the `rapidfuzz` matcher `process.extractOne`,
the NLTK word/stopword oracles, the spaCy entity extractor and the
unknown-word log) are modelled as explicit parameters; the unknown-word
log is modelled by returning the list of words the code would append.
-/

namespace SttServer

/-- ASCII letter: models the regex class `[a-zA-Z]`. -/
def isAsciiAlpha (c : Char) : Bool := c.isUpper || c.isLower

/-- ASCII decimal digit: models the regex class `\d` and `str.isdigit`
on ASCII input. -/
def isDigitChar (c : Char) : Bool := c.isDigit

/-- ASCII fragment of the Python word-character class `\w`. -/
def isWordChar (c : Char) : Bool := isAsciiAlpha c || isDigitChar c || c == '_'

/-- Character class `[\w\-]` of the token-core group in `correct_word`. -/
def isCoreChar (c : Char) : Bool := isWordChar c || c == '-'

/-- Character class `[a-zA-Z\-]` of the medication-part group of the dose
grammar in `correct_medical_with_dose`. -/
def isMedChar (c : Char) : Bool := isAsciiAlpha c || c == '-'

/-- ASCII fragment of Python `str` whitespace (used by `str.split()` and
`str.strip()`). -/
def pyIsSpace (c : Char) : Bool :=
  c == ' ' || c == '\t' || c == '\n' || c == '\r' || c == '\x0b' || c == '\x0c'

/-- Python `str.lower()` (ASCII fragment). -/
def lowerL (l : List Char) : List Char := l.map Char.toLower

/-- Python `str.strip()` with no argument: drop whitespace on both ends. -/
def pyStrip (l : List Char) : List Char :=
  ((l.dropWhile pyIsSpace).reverse.dropWhile pyIsSpace).reverse

/-- Helper for `pySplit`: accumulates the current chunk (reversed). -/
def pySplitGo : List Char → List Char → List (List Char)
  | cur, [] => if cur.isEmpty then [] else [cur.reverse]
  | cur, c :: cs =>
    if pyIsSpace c then
      if cur.isEmpty then pySplitGo [] cs else cur.reverse :: pySplitGo [] cs
    else pySplitGo (c :: cur) cs

/-- Python `str.split()` with no argument: split on whitespace runs,
discarding empty chunks. -/
def pySplit (s : List Char) : List (List Char) := pySplitGo [] s

/-! ## The token pattern `(\W*)([\w\-]+)(\W*)` of `correct_word`

`re.match` anchors only at the start of the string; the greedy `(\W*)`
backtracks character by character when the core group cannot start, and
the trailing `(\W*)` need not reach the end of the token.  The matcher
below explores exactly Python's backtracking order: longest `\W` run
first, giving back one character at a time.  `tokenTryCore acc rest`
attempts `([\w\-]+)(\W*)` at `rest` with the group-1 text `acc.reverse`.
-/

/-- Attempt groups 2 and 3 of the token pattern at `rest`; group 1 is the
already-consumed `acc.reverse`. -/
def tokenTryCore (acc rest : List Char) :
    Option (List Char × List Char × List Char) :=
  if (rest.takeWhile isCoreChar).isEmpty then none
  else some (acc.reverse, rest.takeWhile isCoreChar,
    (rest.drop (rest.takeWhile isCoreChar).length).takeWhile (fun c => !isWordChar c))

/-- Backtracking loop for the greedy leading `(\W*)`. -/
def tokenGo : List Char → List Char → Option (List Char × List Char × List Char)
  | acc, [] => tokenTryCore acc []
  | acc, c :: cs =>
    if isWordChar c then tokenTryCore acc (c :: cs)
    else
      match tokenGo (c :: acc) cs with
      | some r => some r
      | none => tokenTryCore acc (c :: cs)

/-- `re.match(r"(\W*)([\w\-]+)(\W*)", word)`: on success returns the
three groups (leading non-word run, core, trailing non-word run).  The
match need not consume the whole word. -/
def matchToken (word : List Char) : Option (List Char × List Char × List Char) :=
  tokenGo [] word

/-! ## The dose grammar `^([a-zA-Z\-]+)(z)?(\d+)(mg|ml|mcg|g|units)?([a-zA-Z]*)?$`

Embedded with Python's backtracking order: group 1 is greedy (longest
run of `[a-zA-Z\-]` first, giving back one character at a time), the
optional `(z)?` tries to consume a `z` before matching empty, `\d+` is
greedy, the unit alternation is tried in source order, and the final
`([a-zA-Z]*)?` followed by `$` succeeds exactly when the remainder is
all ASCII letters. -/

/-- Result of a successful dose-grammar match: the five groups. -/
structure DoseMatch where
  medPart : List Char
  zPart : Option (List Char)
  doseNum : List Char
  doseUnit : Option (List Char)
  tailPart : List Char
  deriving DecidableEq, Repr

/-- Try one unit alternative `u` at `rest`, then `([a-zA-Z]*)?$`. -/
def tryUnit (u rest : List Char) : Option (Option (List Char) × List Char) :=
  if u.isPrefixOf rest && (rest.drop u.length).all isAsciiAlpha then
    some (some u, rest.drop u.length)
  else none

/-- Groups 4 and 5 plus the end anchor: the unit alternation in source
order (`mg`, `ml`, `mcg`, `g`, `units`), else no unit; the trailing
group then has to absorb the whole remainder. -/
def matchUnitTail (rest : List Char) : Option (Option (List Char) × List Char) :=
  match tryUnit "mg".data rest with
  | some r => some r
  | none =>
    match tryUnit "ml".data rest with
    | some r => some r
    | none =>
      match tryUnit "mcg".data rest with
      | some r => some r
      | none =>
        match tryUnit "g".data rest with
        | some r => some r
        | none =>
          match tryUnit "units".data rest with
          | some r => some r
          | none => if rest.all isAsciiAlpha then some (none, rest) else none

/-- Greedy `\d+` with backtracking: try digit-run lengths `n, n-1, …, 1`
at the head of `rest`; the first length whose continuation succeeds
wins. -/
def doseDigitsGo (med : List Char) (z : Option (List Char)) (rest : List Char) :
    Nat → Option DoseMatch
  | 0 => none
  | k + 1 =>
    match matchUnitTail (rest.drop (k + 1)) with
    | some (u, t) => some ⟨med, z, rest.take (k + 1), u, t⟩
    | none => doseDigitsGo med z rest k

/-- Group 3 onwards at `rest`, with groups 1 and 2 already fixed. -/
def doseDigits (med : List Char) (z : Option (List Char)) (rest : List Char) :
    Option DoseMatch :=
  doseDigitsGo med z rest (rest.takeWhile isDigitChar).length

/-- Attempt the grammar with group 1 of length exactly `k`: first the
greedy `(z)?` (consume a `z` if one is next), then its empty
alternative. -/
def doseAt (w : List Char) (k : Nat) : Option DoseMatch :=
  match w.drop k with
  | c :: rest2 =>
    if c = 'z' then
      match doseDigits (w.take k) (some ['z']) rest2 with
      | some m => some m
      | none => doseDigits (w.take k) none (w.drop k)
    else doseDigits (w.take k) none (w.drop k)
  | [] => doseDigits (w.take k) none (w.drop k)

/-- Greedy group 1 with backtracking: try lengths `k, k-1, …, 1`. -/
def doseG1Go (w : List Char) : Nat → Option DoseMatch
  | 0 => none
  | k + 1 =>
    match doseAt w (k + 1) with
    | some m => some m
    | none => doseG1Go w k

/-- `re.match` of the dose grammar against the whole word. -/
def matchDose (w : List Char) : Option DoseMatch :=
  doseG1Go w (w.takeWhile isMedChar).length

/-! ## Dictionary and fuzzy matcher

The corrections dictionary is an insertion-ordered association list
(Python dicts preserve insertion order).  `rapidfuzz`'s
`process.extractOne(query, keys, scorer=fuzz.ratio)` is external: it is
modelled as an abstract parameter returning the best-matching candidate
together with its similarity score (a rational, standing for the float
score in [0,100]), or nothing. -/

/-- The corrections dictionary: insertion-ordered key/value pairs. -/
abbrev Dict := List (List Char × List Char)

/-- Abstract model of `process.extractOne(query, candidates, scorer=fuzz.ratio)`. -/
abbrev Matcher := List Char → List (List Char) → Option (List Char × ℚ)

/-- `corrections.keys()`. -/
def keysOf (d : Dict) : List (List Char) := d.map Prod.fst

/-! ## `smart_split_by_prefix`

Embedded as `smart_split` (the source name ends in a word this
development cannot use as an identifier).  The body of the `for i in
range(3, len(word) - 2)` loop is `splitTry`; `splitGo i n` runs the
loop from position `i` for `n` further iterations. -/

/-- One iteration of the split loop at position `i`: exact dictionary
hit on both halves first, else a fuzzy hit on both halves with scores at
least `th` and both matched keys literal dictionary keys. -/
def splitTry (fz : Matcher) (w : List Char) (dict : Dict) (th : ℚ) (i : Nat) :
    Option (List Char) :=
  match List.lookup (w.take i) dict, List.lookup (w.drop i) dict with
  | some vp, some vs => some (vp ++ ' ' :: vs)
  | _, _ =>
    match fz (w.take i) (keysOf dict), fz (w.drop i) (keysOf dict) with
    | some pm, some sm =>
      if th ≤ pm.2 && th ≤ sm.2 then
        match List.lookup pm.1 dict, List.lookup sm.1 dict with
        | some vp, some vs => some (vp ++ ' ' :: vs)
        | _, _ => none
      else none
    | _, _ => none

/-- The split loop: position `i`, `n` iterations remaining; first
success wins. -/
def splitGo (fz : Matcher) (w : List Char) (dict : Dict) (th : ℚ) :
    Nat → Nat → Option (List Char)
  | _, 0 => none
  | i, n + 1 =>
    match splitTry fz w dict th i with
    | some r => some r
    | none => splitGo fz w dict th (i + 1) n

/-- `smart_split_by_prefix(word, corrections, threshold)`: lowercase the
word, then scan split positions `range(3, len(word) - 2)` in increasing
order. -/
def smart_split (fz : Matcher) (word : List Char) (dict : Dict) (th : ℚ) :
    Option (List Char) :=
  let w := lowerL word
  splitGo fz w dict th 3 (w.length - 5)

/-! ## `correct_medical_with_dose` -/

/-- `correct_medical_with_dose(word, corrections, threshold)`: parse the
dose grammar; resolve the medication part by exact lookup, then smart
split, then lowercase pass-through; reassemble
`f"{corrected_med} {dose_num}{dose_unit or ''} {suffix or ''}".strip()`. -/
def correct_medical_with_dose (fz : Matcher) (word : List Char) (dict : Dict)
    (th : ℚ) : Option (List Char) :=
  match matchDose word with
  | none => none
  | some m =>
    some (pyStrip
      ((match List.lookup (lowerL m.medPart) dict with
        | some v => v
        | none =>
          match smart_split fz (lowerL m.medPart) dict th with
          | some ss => ss
          | none => lowerL m.medPart) ++
        ' ' :: (m.doseNum ++ m.doseUnit.getD []) ++ ' ' :: m.tailPart))

/-! ## `correct_word`

The nested per-token function of `correct_transcript`.  The only
statement of its `try` block that can raise with well-behaved
collaborators is the unguarded `corrections[result[0]]` of the fuzzy
step (a `KeyError` when the matcher returns a string that is not a
dictionary key); the body is therefore embedded in `Except Unit`, and
`correct_word_gen` applies the `except` handler, returning the raw word
on error.  The step-6 call to the smart splitter is abstracted as the
parameter `ssFn`; `correct_word` instantiates it with
`smart_split_by_prefix(lower_core, corrections)` at the fixed default
threshold 85, exactly as the source does.  The second component of the
result is the list of words passed to `save_incorrect_word` (the
unknown-word log is external; the source appends at most one word per
token). -/

/-- Steps 5 and 6: unknown-word handling guarded by the three oracles. -/
def stepFive (ssFn : List Char → Option (List Char))
    (eng stp : List Char → Bool) (ents : List (List Char))
    (pre core suf lowerCore : List Char) : List Char × List (List Char) :=
  if !eng lowerCore && !stp lowerCore && !ents.contains lowerCore then
    match ssFn lowerCore with
    | some ss => (pre ++ ss ++ suf, [])
    | none => (pre ++ core ++ suf, [lowerL (pyStrip lowerCore)])
  else (pre ++ core ++ suf, [])

/-- Step 4: whole-word fuzzy lookup; `corrections[result[0]]` raises if
the matched key is absent. -/
def stepFour (fz : Matcher) (ssFn : List Char → Option (List Char))
    (dict : Dict) (th : ℚ) (eng stp : List Char → Bool)
    (ents : List (List Char)) (pre core suf lowerCore : List Char) :
    Except Unit (List Char × List (List Char)) :=
  match fz lowerCore (keysOf dict) with
  | some r =>
    if th ≤ r.2 then
      match List.lookup r.1 dict with
      | some corrected => Except.ok (pre ++ corrected ++ suf, [])
      | none => Except.error ()
    else Except.ok (stepFive ssFn eng stp ents pre core suf lowerCore)
  | none => Except.ok (stepFive ssFn eng stp ents pre core suf lowerCore)

/-- Steps 2 (digit guard), 3 (exact lookup), then 4–6. -/
def stepsTwoOn (fz : Matcher) (ssFn : List Char → Option (List Char))
    (dict : Dict) (th : ℚ) (eng stp : List Char → Bool)
    (ents : List (List Char)) (pre core suf : List Char) :
    Except Unit (List Char × List (List Char)) :=
  if core.any isDigitChar then Except.ok (pre ++ core ++ suf, [])
  else
    match List.lookup (lowerL core) dict with
    | some corrected =>
      if lowerL corrected = lowerL core then Except.ok (pre ++ core ++ suf, [])
      else Except.ok (pre ++ corrected ++ suf, [])
    | none => stepFour fz ssFn dict th eng stp ents pre core suf (lowerL core)

/-- The `try` block of `correct_word`. -/
def correct_word_body (fz : Matcher) (ssFn : List Char → Option (List Char))
    (dict : Dict) (th : ℚ) (eng stp : List Char → Bool)
    (ents : List (List Char)) (word : List Char) :
    Except Unit (List Char × List (List Char)) :=
  match matchToken word with
  | none => Except.ok (word, [])
  | some (pre, core, suf) =>
    match correct_medical_with_dose fz core dict th with
    | some d =>
      if d.isEmpty then stepsTwoOn fz ssFn dict th eng stp ents pre core suf
      else Except.ok (pre ++ d ++ suf, [])
    | none => stepsTwoOn fz ssFn dict th eng stp ents pre core suf

/-- `correct_word` with the step-6 splitter abstracted: the `except`
handler returns the raw word unchanged (and nothing was logged, as the
only raising statement precedes the log call). -/
def correct_word_gen (fz : Matcher) (ssFn : List Char → Option (List Char))
    (dict : Dict) (th : ℚ) (eng stp : List Char → Bool)
    (ents : List (List Char)) (word : List Char) :
    List Char × List (List Char) :=
  match correct_word_body fz ssFn dict th eng stp ents word with
  | Except.ok r => r
  | Except.error _ => (word, [])

/-- `correct_word(word)` as in the source: step 6 calls
`smart_split_by_prefix(lower_core, corrections)` with the default
threshold 85, not the caller-supplied one. -/
def correct_word (fz : Matcher) (dict : Dict) (th : ℚ)
    (eng stp : List Char → Bool) (ents : List (List Char))
    (word : List Char) : List Char × List (List Char) :=
  correct_word_gen fz (fun w => smart_split fz w dict 85) dict th eng stp ents word

/-! ## `correct_transcript` -/

/-- `correct_transcript(text, corrections, threshold)`: compute the
named entities once via the external extractor `getEnts`, correct each
whitespace-delimited chunk, and rejoin with single spaces.  The second
component collects the words the unknown-word sink would receive. -/
def correct_transcript (fz : Matcher) (getEnts : List Char → List (List Char))
    (eng stp : List Char → Bool) (text : List Char) (dict : Dict) (th : ℚ) :
    List Char × List (List Char) :=
  (List.intercalate [' ']
    (((pySplit text).map
      (fun w => correct_word fz dict th eng stp (getEnts text) w)).map Prod.fst),
   (((pySplit text).map
      (fun w => correct_word fz dict th eng stp (getEnts text) w)).map
        Prod.snd).flatten)

/-! ## Concrete collaborators used in closed statements -/

/-- The fuzzy matcher that never returns a candidate (in particular the
behaviour forced on `process.extractOne` by an empty candidate set). -/
def mnone : Matcher := fun _ _ => none

/-- An oracle that recognises nothing. -/
def ffb : List Char → Bool := fun _ => false

/-- An entity extractor that returns no entities. -/
def entsNone : List Char → List (List Char) := fun _ => []

/-! ## C10: whitespace-only input yields the empty string -/

theorem pySplitGo_all_space (s : List Char) (h : s.all pyIsSpace = true) :
    pySplitGo [] s = [] := by
  induction s with
  | nil => rfl
  | cons c cs ih =>
    simp only [List.all_cons, Bool.and_eq_true] at h
    simp only [pySplitGo, h.1, if_true, List.isEmpty_nil]
    exact ih h.2

theorem pySplit_all_space (s : List Char) (h : s.all pyIsSpace = true) :
    pySplit s = [] := pySplitGo_all_space s h

/-- C10: for every input consisting only of whitespace characters
(including the empty string), `correct_transcript` returns the empty
string: `str.split()` yields no tokens and joining no tokens yields
`""`, not the original whitespace. -/
theorem c10_whitespace_empty (fz : Matcher) (getEnts : List Char → List (List Char))
    (eng stp : List Char → Bool) (dict : Dict) (th : ℚ) (text : List Char)
    (h : text.all pyIsSpace = true) :
    (correct_transcript fz getEnts eng stp text dict th).fst = [] := by
  unfold correct_transcript
  rw [pySplit_all_space text h]
  rfl

theorem c10_whitespace_empty_witness :
    (correct_transcript mnone entsNone ffb ffb " \t  ".data [] 85).fst = [] :=
  c10_whitespace_empty mnone entsNone ffb ffb [] 85 " \t  ".data (by decide)

/-! ## C8: per-token correction is total and fail-open -/

/-- C8: the `try`/`except` of `correct_word` catches any failure of the
step chain at the token level: when the body raises (the unguarded
`corrections[result[0]]` of the fuzzy step), the original raw token is
returned unchanged and nothing is logged; when the body succeeds, its
result is returned as is — so correction never destroys the input
token and no error escapes a token. -/
theorem c8_fail_open (fz : Matcher) (dict : Dict) (th : ℚ)
    (eng stp : List Char → Bool) (ents : List (List Char)) (word : List Char) :
    (correct_word_body fz (fun w => smart_split fz w dict 85) dict th eng stp ents word
        = Except.error () →
      correct_word fz dict th eng stp ents word = (word, [])) ∧
    (∀ r, correct_word_body fz (fun w => smart_split fz w dict 85) dict th eng stp ents word
        = Except.ok r →
      correct_word fz dict th eng stp ents word = r) := by
  constructor
  · intro h
    unfold correct_word correct_word_gen
    rw [h]
  · intro r h
    unfold correct_word correct_word_gen
    rw [h]

/-- A matcher that reports a high-scoring candidate that is not a
dictionary key, making the fuzzy step's `corrections[result[0]]` raise. -/
def fzBad : Matcher := fun _ _ => some ("nokey".data, 99)

theorem c8_fail_open_witness :
    correct_word fzBad [("a".data, "b".data)] 85 ffb ffb [] "xyz".data
      = ("xyz".data, []) :=
  (c8_fail_open fzBad [("a".data, "b".data)] 85 ffb ffb [] "xyz".data).1 (by rfl)

/-! ## C5: the greedy leftmost scan of the smart splitter -/

theorem splitGo_eq_some_iff (fz : Matcher) (w : List Char) (dict : Dict) (th : ℚ) :
    ∀ (n i : Nat) (r : List Char),
      splitGo fz w dict th i n = some r ↔
        ∃ j, i ≤ j ∧ j < i + n ∧ splitTry fz w dict th j = some r ∧
          ∀ j', i ≤ j' → j' < j → splitTry fz w dict th j' = none := by
  intro n
  induction n with
  | zero =>
    intro i r
    simp only [splitGo]
    constructor
    · intro h; cases h
    · rintro ⟨j, h1, h2, _⟩; omega
  | succ n ih =>
    intro i r
    simp only [splitGo]
    cases h : splitTry fz w dict th i with
    | some r' =>
      simp only [Option.some_inj]
      constructor
      · rintro rfl
        exact ⟨i, Nat.le_refl i, by omega, h, fun j' h1 h2 => absurd (Nat.lt_of_le_of_lt h1 h2) (Nat.lt_irrefl i)⟩
      · rintro ⟨j, h1, h2, h3, h4⟩
        rcases Nat.eq_or_lt_of_le h1 with rfl | hlt
        · rw [h] at h3; exact Option.some_inj.mp h3
        · rw [h4 i (Nat.le_refl i) hlt] at h; cases h
    | none =>
      rw [ih (i + 1) r]
      constructor
      · rintro ⟨j, h1, h2, h3, h4⟩
        refine ⟨j, by omega, by omega, h3, fun j' h1' h2' => ?_⟩
        rcases Nat.eq_or_lt_of_le h1' with rfl | hlt
        · exact h
        · exact h4 j' hlt h2'
      · rintro ⟨j, h1, h2, h3, h4⟩
        have hij : i ≠ j := by
          rintro rfl; rw [h] at h3; cases h3
        refine ⟨j, by omega, by omega, h3, fun j' h1' h2' => h4 j' (by omega) h2'⟩

theorem splitGo_eq_none_iff (fz : Matcher) (w : List Char) (dict : Dict) (th : ℚ) :
    ∀ (n i : Nat),
      splitGo fz w dict th i n = none ↔
        ∀ j, i ≤ j → j < i + n → splitTry fz w dict th j = none := by
  intro n
  induction n with
  | zero =>
    intro i
    constructor
    · intro _ j h1 h2; exact absurd h2 (by omega)
    · intro _; rfl
  | succ n ih =>
    intro i
    simp only [splitGo]
    cases h : splitTry fz w dict th i with
    | some r' =>
      constructor
      · intro h'; cases h'
      · intro h'
        rw [h' i (Nat.le_refl i) (by omega)] at h; cases h
    | none =>
      rw [ih (i + 1)]
      constructor
      · intro h' j h1 h2
        rcases Nat.eq_or_lt_of_le h1 with rfl | hlt
        · exact h
        · exact h' j hlt (by omega)
      · intro h' j h1 h2
        exact h' j (by omega) (by omega)

/-- C5: for every word of length at least 6, `smart_split_by_prefix`
scans split positions `i = 3, …, len(word) - 3` (so both halves have at
least 3 characters) in increasing order, where one position's attempt
`splitTry` accepts an exact dictionary hit on both halves and otherwise
a fuzzy hit with both scores at least the threshold and both matched
keys literal dictionary keys; it returns the result of the first
qualifying position and `None` when no position qualifies. -/
theorem c5_smart_split_spec (fz : Matcher) (dict : Dict) (th : ℚ) (word : List Char)
    (h6 : 6 ≤ word.length) :
    (∀ r, smart_split fz word dict th = some r ↔
      ∃ i, 3 ≤ i ∧ i ≤ word.length - 3 ∧
        splitTry fz (lowerL word) dict th i = some r ∧
        ∀ j, 3 ≤ j → j < i → splitTry fz (lowerL word) dict th j = none) ∧
    (smart_split fz word dict th = none ↔
      ∀ i, 3 ≤ i → i ≤ word.length - 3 →
        splitTry fz (lowerL word) dict th i = none) := by
  have hlen : (lowerL word).length = word.length := List.length_map _ _
  constructor
  · intro r
    unfold smart_split
    rw [splitGo_eq_some_iff, hlen]
    constructor
    · rintro ⟨j, h1, h2, h3, h4⟩
      exact ⟨j, h1, by omega, h3, fun j' hj1 hj2 => h4 j' hj1 hj2⟩
    · rintro ⟨j, h1, h2, h3, h4⟩
      exact ⟨j, h1, by omega, h3, fun j' hj1 hj2 => h4 j' hj1 hj2⟩
  · unfold smart_split
    rw [splitGo_eq_none_iff, hlen]
    constructor
    · intro h i h1 h2; exact h i h1 (by omega)
    · intro h i h1 h2; exact h i h1 (by omega)

theorem c5_smart_split_spec_witness :
    smart_split mnone "paracetamol".data
      [("para".data, "Para".data), ("cetamol".data, "Cetamol".data)] 85
      = some "Para Cetamol".data := by
  refine ((c5_smart_split_spec mnone
    [("para".data, "Para".data), ("cetamol".data, "Cetamol".data)] 85
    "paracetamol".data (by decide)).1 "Para Cetamol".data).mpr ?_
  refine ⟨4, by omega, by decide, by decide, ?_⟩
  intro j h1 h2
  have hj : j = 3 := by omega
  subst hj
  decide

/-! ## The dose number of a successful dose match contains a digit -/

theorem doseDigitsGo_digit (med : List Char) (z : Option (List Char))
    (rest : List Char) :
    ∀ n, n ≤ (rest.takeWhile isDigitChar).length →
      ∀ m, doseDigitsGo med z rest n = some m →
        ∃ c ∈ m.doseNum, isDigitChar c = true := by
  intro n
  induction n with
  | zero => intro _ m h; cases h
  | succ k ih =>
    intro hn m h
    simp only [doseDigitsGo] at h
    cases hmt : matchUnitTail (rest.drop (k + 1)) with
    | some ut =>
      obtain ⟨u, t⟩ := ut
      rw [hmt] at h
      injection h with h
      subst h
      cases rest with
      | nil => simp at hn
      | cons r0 rest' =>
        by_cases hd : isDigitChar r0 = true
        · exact ⟨r0, by simp [List.take_succ_cons], hd⟩
        · rw [List.takeWhile_cons_of_neg (by simp [hd])] at hn
          simp at hn
    | none =>
      rw [hmt] at h
      exact ih (by omega) m h

theorem doseDigits_digit (med : List Char) (z : Option (List Char))
    (rest : List Char) (m : DoseMatch) (h : doseDigits med z rest = some m) :
    ∃ c ∈ m.doseNum, isDigitChar c = true :=
  doseDigitsGo_digit med z rest _ (Nat.le_refl _) m h

theorem doseAt_digit (w : List Char) (k : Nat) (m : DoseMatch)
    (h : doseAt w k = some m) : ∃ c ∈ m.doseNum, isDigitChar c = true := by
  unfold doseAt at h
  split at h
  · split at h
    · split at h
      · rename_i m' hzz
        injection h with h
        exact h ▸ doseDigits_digit _ _ _ _ hzz
      · exact doseDigits_digit _ _ _ _ h
    · exact doseDigits_digit _ _ _ _ h
  · exact doseDigits_digit _ _ _ _ h

theorem doseG1Go_digit (w : List Char) :
    ∀ k m, doseG1Go w k = some m → ∃ c ∈ m.doseNum, isDigitChar c = true := by
  intro k
  induction k with
  | zero => intro m h; cases h
  | succ k ih =>
    intro m h
    simp only [doseG1Go] at h
    cases ha : doseAt w (k + 1) with
    | some m' =>
      rw [ha] at h
      injection h with h
      exact h ▸ doseAt_digit w (k + 1) m' ha
    | none =>
      rw [ha] at h
      exact ih m h

theorem matchDose_digit (w : List Char) (m : DoseMatch) (h : matchDose w = some m) :
    ∃ c ∈ m.doseNum, isDigitChar c = true :=
  doseG1Go_digit w _ m h

/-! ## `str.strip` keeps every non-whitespace character -/

theorem digit_not_space (c : Char) (h : isDigitChar c = true) :
    pyIsSpace c = false := by
  unfold pyIsSpace
  by_contra hns
  rw [Bool.not_eq_false] at hns
  simp only [Bool.or_eq_true, beq_iff_eq] at hns
  rcases hns with ((((h1 | h1) | h1) | h1) | h1) | h1 <;> subst h1 <;>
    exact absurd h (by decide)

theorem mem_dropWhile_of_neg (p : Char → Bool) (c : Char) :
    ∀ l : List Char, c ∈ l → p c = false → c ∈ l.dropWhile p := by
  intro l
  induction l with
  | nil => intro h _; cases h
  | cons x xs ih =>
    intro hm hp
    by_cases hx : p x = true
    · rw [List.dropWhile_cons_of_pos hx]
      rcases List.mem_cons.mp hm with rfl | hm'
      · rw [hp] at hx; cases hx
      · exact ih hm' hp
    · rw [List.dropWhile_cons_of_neg (by simpa using hx)]
      exact hm

theorem pyStrip_ne_nil (l : List Char) (c : Char) (hc : c ∈ l)
    (hns : pyIsSpace c = false) : pyStrip l ≠ [] := by
  unfold pyStrip
  have h1 : c ∈ l.dropWhile pyIsSpace := mem_dropWhile_of_neg _ _ _ hc hns
  have h2 : c ∈ (l.dropWhile pyIsSpace).reverse := List.mem_reverse.mpr h1
  have h3 : c ∈ (l.dropWhile pyIsSpace).reverse.dropWhile pyIsSpace :=
    mem_dropWhile_of_neg _ _ _ h2 hns
  have h4 : c ∈ ((l.dropWhile pyIsSpace).reverse.dropWhile pyIsSpace).reverse :=
    List.mem_reverse.mpr h3
  exact List.ne_nil_of_mem h4

/-- The reassembled dose string of a successful dose parse is nonempty
(it contains at least one digit), so the Python truthiness test
`if dose_fixed:` always takes the dose branch when the grammar
matched. -/
theorem correct_medical_ne_nil (fz : Matcher) (word : List Char) (dict : Dict)
    (th : ℚ) (d : List Char)
    (h : correct_medical_with_dose fz word dict th = some d) : d ≠ [] := by
  unfold correct_medical_with_dose at h
  cases hmd : matchDose word with
  | none => rw [hmd] at h; cases h
  | some m =>
    rw [hmd] at h
    simp only [Option.some_inj] at h
    obtain ⟨c, hc, hdig⟩ := matchDose_digit word m hmd
    refine h ▸ pyStrip_ne_nil _ c ?_ (digit_not_space c hdig)
    simp only [List.mem_append, List.mem_cons]
    tauto

/-! ## C4: dose precedence -/

/-- C4: a token whose core matches the dose grammar is always resolved
through `correct_medical_with_dose` (exact lookup on the medication
part, then smart split, then lowercase pass-through), and the word
corrector returns `prefix + doseResult + suffix` without consulting the
whole-token exact entry or whole-word fuzzy matching. -/
theorem c4_dose_precedence (fz : Matcher) (dict : Dict) (th : ℚ)
    (eng stp : List Char → Bool) (ents : List (List Char))
    (word pre core suf : List Char) (m : DoseMatch)
    (hm : matchToken word = some (pre, core, suf))
    (hd : matchDose core = some m) :
    ∃ d, correct_medical_with_dose fz core dict th = some d ∧ d ≠ [] ∧
      (correct_word fz dict th eng stp ents word).fst = pre ++ d ++ suf := by
  have hdose : ∃ d, correct_medical_with_dose fz core dict th = some d := by
    unfold correct_medical_with_dose
    rw [hd]
    exact ⟨_, rfl⟩
  obtain ⟨d, hdd⟩ := hdose
  have hne : d ≠ [] := correct_medical_ne_nil fz core dict th d hdd
  refine ⟨d, hdd, hne, ?_⟩
  have hie : d.isEmpty = false := by
    cases d with
    | nil => exact absurd rfl hne
    | cons _ _ => rfl
  unfold correct_word correct_word_gen correct_word_body
  simp only [hm, hdd, hie, Bool.false_eq_true, if_false]

/-- The dictionary used by the C4 witness: it contains an exact entry
for the entire token `para500mg` whose value `X` differs from the
dose-path result. -/
def dictC4 : Dict := [("para500mg".data, "X".data), ("para".data, "Para".data)]

theorem c4_dose_precedence_witness :
    (correct_word mnone dictC4 85 ffb ffb [] "para500mg".data).fst
      = "Para 500mg".data ∧ "Para 500mg".data ≠ "X".data := by
  constructor
  · obtain ⟨d, hd1, _, hd3⟩ := c4_dose_precedence mnone dictC4 85 ffb ffb []
      "para500mg".data [] "para500mg".data []
      ⟨"para".data, none, "500".data, some "mg".data, []⟩ (by decide) (by decide)
    have : d = "Para 500mg".data := by
      have h2 : correct_medical_with_dose mnone "para500mg".data dictC4 85
          = some "Para 500mg".data := by decide
      rw [hd1] at h2
      exact Option.some_inj.mp h2
    subst this
    simpa using hd3
  · decide

/-! ## Decomposition of a successful token-pattern match -/

theorem takeWhile_prefix_decomp (p : Char → Bool) :
    ∀ l : List Char, l.takeWhile p ++ l.drop (l.takeWhile p).length = l := by
  intro l
  induction l with
  | nil => rfl
  | cons x xs ih =>
    by_cases hx : p x = true
    · rw [List.takeWhile_cons_of_pos hx]
      simp only [List.length_cons, List.drop_succ_cons, List.cons_append]
      rw [ih]
    · rw [List.takeWhile_cons_of_neg hx]
      rfl

theorem tokenTryCore_decomp (acc rest p c s : List Char)
    (h : tokenTryCore acc rest = some (p, c, s)) :
    p = acc.reverse ∧ ∃ r2, rest = c ++ s ++ r2 := by
  unfold tokenTryCore at h
  split at h
  · cases h
  · rw [Option.some_inj, Prod.mk.injEq, Prod.mk.injEq] at h
    obtain ⟨h1, h2, h3⟩ := h
    subst h1; subst h2; subst h3
    refine ⟨rfl,
      (rest.drop (rest.takeWhile isCoreChar).length).drop
        ((rest.drop (rest.takeWhile isCoreChar).length).takeWhile
          (fun c => !isWordChar c)).length, ?_⟩
    rw [List.append_assoc,
      takeWhile_prefix_decomp (fun c => !isWordChar c)
        (rest.drop (rest.takeWhile isCoreChar).length),
      takeWhile_prefix_decomp isCoreChar rest]

theorem tokenGo_decomp :
    ∀ (rest acc p c s : List Char), tokenGo acc rest = some (p, c, s) →
      ∃ mid r2, p = acc.reverse ++ mid ∧ rest = mid ++ (c ++ s ++ r2) := by
  intro rest
  induction rest with
  | nil =>
    intro acc p c s h
    obtain ⟨h1, r2, h2⟩ := tokenTryCore_decomp acc [] p c s h
    exact ⟨[], r2, by simp [h1], by simpa using h2⟩
  | cons x xs ih =>
    intro acc p c s h
    simp only [tokenGo] at h
    split at h
    · obtain ⟨h1, r2, h2⟩ := tokenTryCore_decomp acc (x :: xs) p c s h
      exact ⟨[], r2, by simp [h1], by simpa using h2⟩
    · split at h
      · rename_i r hr
        rw [Option.some_inj] at h
        subst h
        obtain ⟨mid, r2, h1, h2⟩ := ih (x :: acc) p c s hr
        refine ⟨x :: mid, r2, ?_, ?_⟩
        · rw [h1, List.reverse_cons, List.append_assoc]
          rfl
        · rw [h2]
          rfl
      · obtain ⟨h1, r2, h2⟩ := tokenTryCore_decomp acc (x :: xs) p c s h
        exact ⟨[], r2, by simp [h1], by simpa using h2⟩

theorem matchToken_decomp (word pre core suf : List Char)
    (h : matchToken word = some (pre, core, suf)) :
    ∃ r2, word = pre ++ core ++ suf ++ r2 := by
  obtain ⟨mid, r2, h1, h2⟩ := tokenGo_decomp word [] pre core suf h
  simp only [List.reverse_nil, List.nil_append] at h1
  subst h1
  exact ⟨r2, by rw [h2]; simp [List.append_assoc]⟩

/-! ## Every return of the word corrector has the matched frame -/

theorem lookup_of_mem_keys (d : Dict) (a : List Char) (h : a ∈ keysOf d) :
    ∃ v, List.lookup a d = some v := by
  induction d with
  | nil => cases h
  | cons kv rest ih =>
    obtain ⟨k, v⟩ := kv
    simp only [keysOf, List.map_cons, List.mem_cons] at h
    by_cases hk : (a == k) = true
    · exact ⟨v, by simp [List.lookup, hk]⟩
    · rcases h with h | h
      · subst h; simp at hk
      · obtain ⟨v', hv'⟩ := ih (by simpa [keysOf] using h)
        exact ⟨v', by simp [List.lookup, hk, hv']⟩

theorem stepFive_frame (ssFn : List Char → Option (List Char))
    (eng stp : List Char → Bool) (ents : List (List Char))
    (pre core suf lc : List Char) :
    ∃ mid log, stepFive ssFn eng stp ents pre core suf lc
      = (pre ++ mid ++ suf, log) := by
  unfold stepFive
  split
  · split
    · exact ⟨_, _, rfl⟩
    · exact ⟨_, _, rfl⟩
  · exact ⟨_, _, rfl⟩

theorem stepFour_frame (fz : Matcher) (ssFn : List Char → Option (List Char))
    (dict : Dict) (th : ℚ) (eng stp : List Char → Bool) (ents : List (List Char))
    (pre core suf lc : List Char)
    (hwf : ∀ q ks r, fz q ks = some r → r.1 ∈ ks) :
    ∃ mid log, stepFour fz ssFn dict th eng stp ents pre core suf lc
      = Except.ok (pre ++ mid ++ suf, log) := by
  unfold stepFour
  split
  · rename_i r hr
    split
    · split
      · exact ⟨_, _, rfl⟩
      · rename_i hnone
        obtain ⟨v, hv⟩ := lookup_of_mem_keys dict r.1 (hwf _ _ _ hr)
        rw [hv] at hnone
        cases hnone
    · obtain ⟨mid, log, h5⟩ := stepFive_frame ssFn eng stp ents pre core suf lc
      exact ⟨mid, log, by rw [h5]⟩
  · obtain ⟨mid, log, h5⟩ := stepFive_frame ssFn eng stp ents pre core suf lc
    exact ⟨mid, log, by rw [h5]⟩

theorem stepsTwoOn_frame (fz : Matcher) (ssFn : List Char → Option (List Char))
    (dict : Dict) (th : ℚ) (eng stp : List Char → Bool) (ents : List (List Char))
    (pre core suf : List Char)
    (hwf : ∀ q ks r, fz q ks = some r → r.1 ∈ ks) :
    ∃ mid log, stepsTwoOn fz ssFn dict th eng stp ents pre core suf
      = Except.ok (pre ++ mid ++ suf, log) := by
  unfold stepsTwoOn
  split
  · exact ⟨_, _, rfl⟩
  · split
    · split
      · exact ⟨_, _, rfl⟩
      · exact ⟨_, _, rfl⟩
    · exact stepFour_frame fz ssFn dict th eng stp ents pre core suf _ hwf

theorem correct_word_frame (fz : Matcher) (dict : Dict) (th : ℚ)
    (eng stp : List Char → Bool) (ents : List (List Char))
    (word pre core suf : List Char)
    (hwf : ∀ q ks r, fz q ks = some r → r.1 ∈ ks)
    (hm : matchToken word = some (pre, core, suf)) :
    ∃ mid, (correct_word fz dict th eng stp ents word).fst = pre ++ mid ++ suf := by
  have hbody : ∃ mid log,
      correct_word_body fz (fun w => smart_split fz w dict 85) dict th eng stp ents word
        = Except.ok (pre ++ mid ++ suf, log) := by
    unfold correct_word_body
    simp only [hm]
    split
    · split
      · exact stepsTwoOn_frame fz _ dict th eng stp ents pre core suf hwf
      · exact ⟨_, _, rfl⟩
    · exact stepsTwoOn_frame fz _ dict th eng stp ents pre core suf hwf
  obtain ⟨mid, log, hb⟩ := hbody
  refine ⟨mid, ?_⟩
  unfold correct_word correct_word_gen
  rw [hb]

/-! ## C1: punctuation frame -/

/-- C1 (amended): when the token pattern matches, the word corrector's
output is always `pre ++ mid ++ suf` for the pattern's (leading
punctuation, core, trailing punctuation) groups, and the input token
decomposes as `pre ++ core ++ suf ++ rest`: the surrounding punctuation
the pattern captured is reproduced around the (possibly replaced) core,
but any characters `rest` after the matched portion are dropped (the
pattern is not end-anchored), so the reassembly reproduces the token
exactly only when `rest = []`.  The matcher hypothesis is the
`rapidfuzz` contract that a returned candidate comes from the supplied
key set. -/
theorem c1_punct_frame (fz : Matcher) (dict : Dict) (th : ℚ)
    (eng stp : List Char → Bool) (ents : List (List Char))
    (word pre core suf : List Char)
    (hwf : ∀ q ks r, fz q ks = some r → r.1 ∈ ks)
    (hm : matchToken word = some (pre, core, suf)) :
    ∃ rest mid, word = pre ++ core ++ suf ++ rest ∧
      (correct_word fz dict th eng stp ents word).fst = pre ++ mid ++ suf := by
  obtain ⟨rest, hdec⟩ := matchToken_decomp word pre core suf hm
  obtain ⟨mid, hout⟩ :=
    correct_word_frame fz dict th eng stp ents word pre core suf hwf hm
  exact ⟨rest, mid, hdec, hout⟩

theorem c1_counterexample :
    (correct_word mnone [] 85 ffb ffb [] "ab.cd".data).fst = "ab.".data ∧
      "ab.".data ≠ "ab.cd".data := by
  constructor
  · decide
  · decide

theorem c1_punct_frame_witness :
    ∃ rest mid, "ab!?".data = "".data ++ "ab".data ++ "!?".data ++ rest ∧
      (correct_word mnone [] 85 ffb ffb [] "ab!?".data).fst
        = "".data ++ mid ++ "!?".data :=
  c1_punct_frame mnone [] 85 ffb ffb [] "ab!?".data "".data "ab".data "!?".data
    (fun q ks r h => by simp [mnone] at h) (by decide)

/-! ## C7: oracle exclusion -/

/-- C7 (amended): when a token reaches step 6 unresolved (its core did
not parse as a dose, contains no digit, has no exact dictionary entry,
and the whole-word fuzzy match does not reach the threshold) and its
lowercased core is recognised by the English-word oracle, the stopword
oracle, or the named-entity set, the word corrector returns
`pre ++ core ++ suf` — the token itself whenever the pattern consumed
it entirely — without invoking the smart splitter (the result is
independent of the splitter `ssFn`) and without logging anything. -/
theorem c7_oracle_exclusion (fz : Matcher) (ssFn : List Char → Option (List Char))
    (dict : Dict) (th : ℚ) (eng stp : List Char → Bool) (ents : List (List Char))
    (word pre core suf : List Char)
    (hm : matchToken word = some (pre, core, suf))
    (hdose : correct_medical_with_dose fz core dict th = none)
    (hdig : core.any isDigitChar = false)
    (hlook : List.lookup (lowerL core) dict = none)
    (hfuzz : ∀ r, fz (lowerL core) (keysOf dict) = some r → r.2 < th)
    (horacle : (eng (lowerL core) || stp (lowerL core)
        || ents.contains (lowerL core)) = true) :
    correct_word_gen fz ssFn dict th eng stp ents word
      = (pre ++ core ++ suf, []) := by
  have h5 : stepFive ssFn eng stp ents pre core suf (lowerL core)
      = (pre ++ core ++ suf, []) := by
    unfold stepFive
    have hcond : (!eng (lowerL core) && !stp (lowerL core)
        && !ents.contains (lowerL core)) = false := by
      cases heng : eng (lowerL core) <;> cases hstp : stp (lowerL core) <;>
        cases hent : ents.contains (lowerL core) <;> simp_all
    rw [hcond]
    simp
  have h4 : stepFour fz ssFn dict th eng stp ents pre core suf (lowerL core)
      = Except.ok (pre ++ core ++ suf, []) := by
    unfold stepFour
    split
    · rename_i r hf
      rw [if_neg (not_le.mpr (hfuzz r hf))]
      rw [h5]
    · rw [h5]
  have h2 : stepsTwoOn fz ssFn dict th eng stp ents pre core suf
      = Except.ok (pre ++ core ++ suf, []) := by
    unfold stepsTwoOn
    simp only [hdig, Bool.false_eq_true, if_false, hlook, h4]
  unfold correct_word_gen correct_word_body
  simp only [hm, hdose, h2]

/-- A splitter that would loudly rewrite any word it is asked about:
the oracle-exclusion theorem shows it is never consulted. -/
def ssBoom : List Char → Option (List Char) := fun _ => some "BOOM".data

/-- An English-word oracle recognising exactly `hello`. -/
def engHello : List Char → Bool := fun w => w == "hello".data

theorem c7_oracle_exclusion_witness :
    correct_word_gen mnone ssBoom [] 85 engHello ffb [] "hello!".data
      = ("hello!".data, []) := by
  have h := c7_oracle_exclusion mnone ssBoom [] 85 engHello ffb [] "hello!".data
    [] "hello".data "!".data (by decide) (by decide) (by decide) (by decide)
    (fun r h => by simp [mnone] at h) (by decide)
  simpa using h

/-- An English-word oracle recognising exactly `ab`. -/
def engAb : List Char → Bool := fun w => w == "ab".data

theorem c7_counterexample :
    (correct_word mnone [] 85 engAb ffb [] "ab.cd".data).fst = "ab.".data ∧
      "ab.".data ≠ "ab.cd".data := by
  constructor
  · decide
  · decide

/-! ## C9: the two branches use different thresholds -/

/-- C9: within one `correct_transcript`/`correct_word` call with
caller-supplied threshold `th`, the unrecognised-word branch (step 6)
invokes the smart splitter at the fixed default threshold 85, while the
dose branch (step 2) passes `th` through to the splitter — the two
branches can apply different fuzzy-acceptance thresholds. -/
theorem c9_threshold_split (fz : Matcher) (dict : Dict) (th : ℚ)
    (eng stp : List Char → Bool) (ents : List (List Char))
    (word pre core suf : List Char) :
    ((matchToken word = some (pre, core, suf)) →
      correct_medical_with_dose fz core dict th = none →
      core.any isDigitChar = false →
      List.lookup (lowerL core) dict = none →
      (∀ r, fz (lowerL core) (keysOf dict) = some r → r.2 < th) →
      (eng (lowerL core) || stp (lowerL core)
        || ents.contains (lowerL core)) = false →
      (correct_word fz dict th eng stp ents word).fst
        = pre ++ (match smart_split fz (lowerL core) dict 85 with
                  | some ss => ss
                  | none => core) ++ suf) ∧
    (∀ m : DoseMatch, matchToken word = some (pre, core, suf) →
      matchDose core = some m →
      List.lookup (lowerL m.medPart) dict = none →
      (correct_word fz dict th eng stp ents word).fst
        = pre ++ pyStrip
            ((match smart_split fz (lowerL m.medPart) dict th with
              | some ss => ss
              | none => lowerL m.medPart) ++
              ' ' :: (m.doseNum ++ m.doseUnit.getD []) ++ ' ' :: m.tailPart)
            ++ suf) := by
  constructor
  · intro hm hdose hdig hlook hfuzz horacle
    have hforacle : (eng (lowerL core) = false) ∧ (stp (lowerL core) = false) ∧
        (ents.contains (lowerL core) = false) := by
      cases heng : eng (lowerL core) <;> cases hstp : stp (lowerL core) <;>
        cases hent : ents.contains (lowerL core) <;>
        simp_all
    have h5 : stepFive (fun w => smart_split fz w dict 85) eng stp ents
        pre core suf (lowerL core)
        = (pre ++ (match smart_split fz (lowerL core) dict 85 with
                   | some ss => ss
                   | none => core) ++ suf,
           match smart_split fz (lowerL core) dict 85 with
           | some _ => []
           | none => [lowerL (pyStrip (lowerL core))]) := by
      unfold stepFive
      rw [hforacle.1, hforacle.2.1, hforacle.2.2]
      cases hss : smart_split fz (lowerL core) dict 85 <;> simp [hss]
    have h4 : stepFour fz (fun w => smart_split fz w dict 85) dict th eng stp ents
        pre core suf (lowerL core)
        = Except.ok (stepFive (fun w => smart_split fz w dict 85) eng stp ents
            pre core suf (lowerL core)) := by
      unfold stepFour
      split
      · rename_i r hf
        rw [if_neg (not_le.mpr (hfuzz r hf))]
      · rfl
    have h2 : stepsTwoOn fz (fun w => smart_split fz w dict 85) dict th eng stp
        ents pre core suf
        = Except.ok (stepFive (fun w => smart_split fz w dict 85) eng stp ents
            pre core suf (lowerL core)) := by
      unfold stepsTwoOn
      simp only [hdig, Bool.false_eq_true, if_false, hlook, h4]
    unfold correct_word correct_word_gen correct_word_body
    simp only [hm, hdose, h2, h5]
  · intro m hm hd hlookmed
    have hdd : correct_medical_with_dose fz core dict th
        = some (pyStrip
            ((match smart_split fz (lowerL m.medPart) dict th with
              | some ss => ss
              | none => lowerL m.medPart) ++
              ' ' :: (m.doseNum ++ m.doseUnit.getD []) ++ ' ' :: m.tailPart)) := by
      unfold correct_medical_with_dose
      simp only [hd, hlookmed]
    have hne := correct_medical_ne_nil fz core dict th _ hdd
    have hie : (pyStrip
        ((match smart_split fz (lowerL m.medPart) dict th with
          | some ss => ss
          | none => lowerL m.medPart) ++
          ' ' :: (m.doseNum ++ m.doseUnit.getD []) ++ ' ' :: m.tailPart)).isEmpty
        = false := by
      cases hc : pyStrip
          ((match smart_split fz (lowerL m.medPart) dict th with
            | some ss => ss
            | none => lowerL m.medPart) ++
            ' ' :: (m.doseNum ++ m.doseUnit.getD []) ++ ' ' :: m.tailPart) with
      | nil => exact absurd hc hne
      | cons _ _ => rfl
    unfold correct_word correct_word_gen correct_word_body
    simp only [hm, hdd, hie, Bool.false_eq_true, if_false]

/-- Dictionary for the C9 witness: the two halves of `abcdef` are close
to the keys `abcx` and `defx`. -/
def dictC9 : Dict := [("abcx".data, "X".data), ("defx".data, "Y".data)]

/-- Matcher for the C9 witness: scores 90 for the two halves, nothing
for any other query.  At the caller-supplied threshold 99 a score of 90
is rejected; at the fixed step-6 threshold 85 it is accepted. -/
def fzC9 : Matcher := fun q _ =>
  if q = "abc".data then some ("abcx".data, 90)
  else if q = "def".data then some ("defx".data, 90)
  else none

theorem c9_threshold_split_witness :
    (correct_word fzC9 dictC9 99 ffb ffb [] "abcdef".data).fst = "X Y".data := by
  have h := (c9_threshold_split fzC9 dictC9 99 ffb ffb [] "abcdef".data
      [] "abcdef".data []).1 (by decide) (by rfl) (by decide) (by decide)
    (fun r hr => by
      have h0 : fzC9 (lowerL "abcdef".data) (keysOf dictC9) = none := by decide
      rw [h0] at hr; cases hr)
    (by decide)
  rw [h]
  have hss : smart_split fzC9 (lowerL "abcdef".data) dictC9 85
      = some "X Y".data := by decide
  rw [hss]
  simp

/-! ## C2: the `(z)?` group of the dose grammar never captures

The greedy medication group `([a-zA-Z\-]+)` absorbs a `z` standing
before the digits; giving it back to `(z)?` leaves the digit position
unchanged, so any continuation that succeeds after a captured `z` has
already succeeded — earlier in the backtracking order — with the longer
medication part and an empty `(z)?`. -/

theorem doseDigitsGo_zPart (med : List Char) (z : Option (List Char))
    (rest : List Char) :
    ∀ n m, doseDigitsGo med z rest n = some m → m.zPart = z := by
  intro n
  induction n with
  | zero => intro m h; cases h
  | succ k ih =>
    intro m h
    simp only [doseDigitsGo] at h
    cases hmt : matchUnitTail (rest.drop (k + 1)) with
    | some ut =>
      obtain ⟨u, t⟩ := ut
      rw [hmt] at h
      injection h with h
      subst h
      rfl
    | none =>
      rw [hmt] at h
      exact ih m h

theorem doseDigits_zPart (med : List Char) (z : Option (List Char))
    (rest : List Char) (m : DoseMatch) (h : doseDigits med z rest = some m) :
    m.zPart = z :=
  doseDigitsGo_zPart med z rest _ m h

theorem doseDigitsGo_isSome_congr (med med' : List Char)
    (z z' : Option (List Char)) (rest : List Char) :
    ∀ n, (doseDigitsGo med z rest n).isSome
      = (doseDigitsGo med' z' rest n).isSome := by
  intro n
  induction n with
  | zero => rfl
  | succ k ih =>
    simp only [doseDigitsGo]
    cases hmt : matchUnitTail (rest.drop (k + 1)) with
    | some ut =>
      obtain ⟨u, t⟩ := ut
      rfl
    | none => exact ih

theorem takeWhile_succ_of_head (p : Char → Bool) :
    ∀ (w : List Char) (k : Nat) (c : Char), k ≤ (w.takeWhile p).length →
      (w.drop k).head? = some c → p c = true →
      k + 1 ≤ (w.takeWhile p).length := by
  intro w
  induction w with
  | nil =>
    intro k c _ h2 _
    simp at h2
  | cons x xs ih =>
    intro k c h1 h2 h3
    cases k with
    | zero =>
      simp only [List.drop_zero, List.head?_cons, Option.some_inj] at h2
      subst h2
      rw [List.takeWhile_cons_of_pos h3]
      simp
    | succ k' =>
      have hx : p x = true := by
        by_contra hx
        rw [List.takeWhile_cons_of_neg hx] at h1
        simp at h1
      rw [List.takeWhile_cons_of_pos hx] at h1 ⊢
      simp only [List.length_cons] at h1 ⊢
      have := ih k' c (by omega) (by simpa using h2) h3
      omega

theorem doseAt_none_eps (w : List Char) (j : Nat) (h : doseAt w j = none) :
    doseDigits (w.take j) none (w.drop j) = none := by
  unfold doseAt at h
  split at h
  · split at h
    · split at h
      · cases h
      · exact h
    · exact h
  · exact h

theorem doseG1Go_z_none (w : List Char) :
    ∀ k, k ≤ (w.takeWhile isMedChar).length →
      (∀ j, k < j → j ≤ (w.takeWhile isMedChar).length → doseAt w j = none) →
      ∀ m, doseG1Go w k = some m → m.zPart = none := by
  intro k
  induction k with
  | zero => intro _ _ m h; cases h
  | succ k ih =>
    intro hk hj m h
    simp only [doseG1Go] at h
    cases ha : doseAt w (k + 1) with
    | some m0 =>
      rw [ha] at h
      injection h with h
      subst h
      unfold doseAt at ha
      split at ha
      · rename_i c rest2 hdr
        split at ha
        · rename_i hcz
          split at ha
          · rename_i m1 hz1
            exfalso
            subst hcz
            have hhead : (w.drop (k + 1)).head? = some 'z' := by rw [hdr]; rfl
            have hk2 : k + 2 ≤ (w.takeWhile isMedChar).length :=
              takeWhile_succ_of_head isMedChar w (k + 1) 'z' hk hhead (by decide)
            have hnone := hj (k + 2) (by omega) hk2
            have heps := doseAt_none_eps w (k + 2) hnone
            have hdrop2 : w.drop (k + 2) = rest2 := by
              have h1 : (w.drop (k + 1)).drop 1 = w.drop (k + 2) := by
                rw [List.drop_drop]
              rw [← h1, hdr]
              rfl
            rw [hdrop2] at heps
            have hcongr := doseDigitsGo_isSome_congr (w.take (k + 2))
              (w.take (k + 1)) none (some ['z']) rest2
              (rest2.takeWhile isDigitChar).length
            unfold doseDigits at heps hz1
            rw [heps, hz1] at hcongr
            cases hcongr
          · exact doseDigits_zPart _ _ _ m0 ha
        · exact doseDigits_zPart _ _ _ m0 ha
      · exact doseDigits_zPart _ _ _ m0 ha
    | none =>
      rw [ha] at h
      refine ih (by omega) (fun j h1 h2 => ?_) m h
      rcases Nat.lt_or_ge j (k + 2) with hlt | hge
      · have hje : j = k + 1 := by omega
        subst hje
        exact ha
      · exact hj j (by omega) h2

/-- C2 (amended): in every successful match of the dose grammar the
`(z)?` group is empty — a `z` standing immediately before the digits is
absorbed by the greedy medication group and therefore stays part of
`medicationPart` (and of the reassembled output); it is never
recognised separately, never discarded. -/
theorem c2_z_never_captured (w : List Char) (m : DoseMatch)
    (h : matchDose w = some m) : m.zPart = none := by
  unfold matchDose at h
  exact doseG1Go_z_none w (w.takeWhile isMedChar).length (Nat.le_refl _)
    (fun j h1 h2 => absurd h2 (by omega)) m h

theorem c2_z_never_captured_witness :
    (⟨"abz".data, none, "5".data, some "mg".data, []⟩ : DoseMatch).zPart
      = none :=
  c2_z_never_captured "abz5mg".data
    ⟨"abz".data, none, "5".data, some "mg".data, []⟩ (by decide)

theorem c2_counterexample :
    matchDose "abz5mg".data
        = some ⟨"abz".data, none, "5".data, some "mg".data, []⟩ ∧
      correct_medical_with_dose mnone "abz5mg".data [] 85
        = some "abz 5mg".data ∧
      "abz 5mg".data ≠ "ab 5mg".data :=
  ⟨by decide, by decide, by decide⟩

/-! ## C6: the unit group only ever captures a lowercase literal -/

theorem tryUnit_shape (u rest : List Char) (v : Option (List Char))
    (t : List Char) (h : tryUnit u rest = some (v, t)) : v = some u := by
  unfold tryUnit at h
  split at h
  · rw [Option.some_inj, Prod.mk.injEq] at h
    exact h.1.symm
  · cases h

theorem matchUnitTail_unit (rest : List Char) (v : Option (List Char))
    (t : List Char) (h : matchUnitTail rest = some (v, t)) :
    v = none ∨ v = some "mg".data ∨ v = some "ml".data ∨ v = some "mcg".data ∨
      v = some "g".data ∨ v = some "units".data := by
  unfold matchUnitTail at h
  split at h
  · rename_i r hmg
    rw [Option.some_inj] at h
    rw [h] at hmg
    exact Or.inr (Or.inl (tryUnit_shape _ _ _ _ hmg))
  · split at h
    · rename_i r hml
      rw [Option.some_inj] at h
      rw [h] at hml
      exact Or.inr (Or.inr (Or.inl (tryUnit_shape _ _ _ _ hml)))
    · split at h
      · rename_i r hmcg
        rw [Option.some_inj] at h
        rw [h] at hmcg
        exact Or.inr (Or.inr (Or.inr (Or.inl (tryUnit_shape _ _ _ _ hmcg))))
      · split at h
        · rename_i r hg
          rw [Option.some_inj] at h
          rw [h] at hg
          exact Or.inr (Or.inr (Or.inr (Or.inr (Or.inl (tryUnit_shape _ _ _ _ hg)))))
        · split at h
          · rename_i r hu
            rw [Option.some_inj] at h
            rw [h] at hu
            exact Or.inr (Or.inr (Or.inr (Or.inr (Or.inr
              (tryUnit_shape _ _ _ _ hu)))))
          · split at h
            · rw [Option.some_inj, Prod.mk.injEq] at h
              exact Or.inl h.1.symm
            · cases h

theorem doseDigitsGo_unit (med : List Char) (z : Option (List Char))
    (rest : List Char) :
    ∀ n m, doseDigitsGo med z rest n = some m →
      m.doseUnit = none ∨ m.doseUnit = some "mg".data ∨
        m.doseUnit = some "ml".data ∨ m.doseUnit = some "mcg".data ∨
        m.doseUnit = some "g".data ∨ m.doseUnit = some "units".data := by
  intro n
  induction n with
  | zero => intro m h; cases h
  | succ k ih =>
    intro m h
    simp only [doseDigitsGo] at h
    cases hmt : matchUnitTail (rest.drop (k + 1)) with
    | some ut =>
      obtain ⟨u, t⟩ := ut
      rw [hmt] at h
      injection h with h
      subst h
      exact matchUnitTail_unit _ u t hmt
    | none =>
      rw [hmt] at h
      exact ih m h

theorem doseAt_unit (w : List Char) (k : Nat) (m : DoseMatch)
    (h : doseAt w k = some m) :
    m.doseUnit = none ∨ m.doseUnit = some "mg".data ∨
      m.doseUnit = some "ml".data ∨ m.doseUnit = some "mcg".data ∨
      m.doseUnit = some "g".data ∨ m.doseUnit = some "units".data := by
  unfold doseAt at h
  split at h
  · split at h
    · split at h
      · rename_i m' hzz
        injection h with h
        exact h ▸ doseDigitsGo_unit _ _ _ _ m' hzz
      · exact doseDigitsGo_unit _ _ _ _ m h
    · exact doseDigitsGo_unit _ _ _ _ m h
  · exact doseDigitsGo_unit _ _ _ _ m h

/-- C6 (amended): the dose grammar's letter classes accept either case,
but the unit alternation (like the literal `z`) is matched
case-sensitively against the lowercase literals, so `doseUnit` only
ever holds one of `mg`, `ml`, `mcg`, `g`, `units` verbatim; a token
written with `MG` still matches the grammar, but its `MG` is captured
by the trailing-letters group and its `doseUnit` is empty, unlike the
lowercase form. -/
theorem c6_unit_lowercase (w : List Char) (m : DoseMatch)
    (h : matchDose w = some m) :
    m.doseUnit = none ∨ m.doseUnit = some "mg".data ∨
      m.doseUnit = some "ml".data ∨ m.doseUnit = some "mcg".data ∨
      m.doseUnit = some "g".data ∨ m.doseUnit = some "units".data := by
  unfold matchDose at h
  revert h
  generalize (w.takeWhile isMedChar).length = n
  induction n with
  | zero => intro h; cases h
  | succ k ih =>
    intro h
    simp only [doseG1Go] at h
    cases ha : doseAt w (k + 1) with
    | some m' =>
      rw [ha] at h
      injection h with h
      exact h ▸ doseAt_unit w (k + 1) m' ha
    | none =>
      rw [ha] at h
      exact ih h

theorem c6_unit_lowercase_witness :
    (⟨"amox".data, none, "500".data, none, "MG".data⟩ : DoseMatch).doseUnit = none ∨
      (⟨"amox".data, none, "500".data, none, "MG".data⟩ : DoseMatch).doseUnit
        = some "mg".data ∨
      (⟨"amox".data, none, "500".data, none, "MG".data⟩ : DoseMatch).doseUnit
        = some "ml".data ∨
      (⟨"amox".data, none, "500".data, none, "MG".data⟩ : DoseMatch).doseUnit
        = some "mcg".data ∨
      (⟨"amox".data, none, "500".data, none, "MG".data⟩ : DoseMatch).doseUnit
        = some "g".data ∨
      (⟨"amox".data, none, "500".data, none, "MG".data⟩ : DoseMatch).doseUnit
        = some "units".data :=
  c6_unit_lowercase "amox500MG".data
    ⟨"amox".data, none, "500".data, none, "MG".data⟩ (by decide)

theorem c6_counterexample :
    matchDose "amox500MG".data
        = some ⟨"amox".data, none, "500".data, none, "MG".data⟩ ∧
      matchDose "amox500mg".data
        = some ⟨"amox".data, none, "500".data, some "mg".data, []⟩ ∧
      (⟨"amox".data, none, "500".data, none, "MG".data⟩ : DoseMatch).doseUnit
        ≠ (⟨"amox".data, none, "500".data, some "mg".data, []⟩ : DoseMatch).doseUnit :=
  ⟨by decide, by decide, by decide⟩

/-! ## C3: round trip on the empty dictionary -/

theorem splitTry_empty (fz : Matcher) (w : List Char) (th : ℚ) (i : Nat)
    (hfz0 : ∀ q, fz q [] = none) :
    splitTry fz w [] th i = none := by
  unfold splitTry
  rw [show List.lookup (w.take i) ([] : Dict) = none from rfl,
    show List.lookup (w.drop i) ([] : Dict) = none from rfl,
    show keysOf ([] : Dict) = [] from rfl,
    hfz0 (w.take i), hfz0 (w.drop i)]

theorem smart_split_empty (fz : Matcher) (word : List Char) (th : ℚ)
    (hfz0 : ∀ q, fz q [] = none) :
    smart_split fz word [] th = none := by
  unfold smart_split
  rw [splitGo_eq_none_iff]
  intro j _ _
  exact splitTry_empty fz (lowerL word) th j hfz0

/-- A token passes through the corrector verbatim on an empty
dictionary when the punctuation pattern either fails on it or consumes
it entirely with a core that does not match the dose grammar. -/
def tokenUntouched (word : List Char) : Bool :=
  match matchToken word with
  | none => true
  | some (pre, core, suf) =>
    (pre ++ core ++ suf == word) && (matchDose core).isNone

theorem stepFive_id_of_ss_none (ssFn : List Char → Option (List Char))
    (eng stp : List Char → Bool) (ents : List (List Char))
    (pre core suf lc : List Char) (hss : ssFn lc = none) :
    (stepFive ssFn eng stp ents pre core suf lc).fst = pre ++ core ++ suf := by
  unfold stepFive
  split
  · rw [hss]
  · rfl

theorem correct_word_empty_dict (fz : Matcher) (th : ℚ)
    (eng stp : List Char → Bool) (ents : List (List Char)) (word : List Char)
    (hfz0 : ∀ q, fz q [] = none) (ht : tokenUntouched word = true) :
    (correct_word fz [] th eng stp ents word).fst = word := by
  unfold tokenUntouched at ht
  cases hm : matchToken word with
  | none =>
    unfold correct_word correct_word_gen correct_word_body
    simp only [hm]
  | some pcs =>
    obtain ⟨pre, core, suf⟩ := pcs
    rw [hm] at ht
    simp only [Bool.and_eq_true, beq_iff_eq, Option.isNone_iff_eq_none] at ht
    obtain ⟨hw, hdn⟩ := ht
    have hcd : correct_medical_with_dose fz core [] th = none := by
      unfold correct_medical_with_dose
      rw [hdn]
    have hss : smart_split fz (lowerL core) [] 85 = none :=
      smart_split_empty fz (lowerL core) 85 hfz0
    have h5 : (stepFive (fun w => smart_split fz w [] 85) eng stp ents
        pre core suf (lowerL core)).fst = pre ++ core ++ suf :=
      stepFive_id_of_ss_none _ eng stp ents pre core suf (lowerL core) hss
    have h5e : stepFive (fun w => smart_split fz w [] 85) eng stp ents
        pre core suf (lowerL core)
        = (pre ++ core ++ suf,
           (stepFive (fun w => smart_split fz w [] 85) eng stp ents
             pre core suf (lowerL core)).snd) := by
      rw [← h5]
    have h4 : stepFour fz (fun w => smart_split fz w [] 85) [] th eng stp ents
        pre core suf (lowerL core)
        = Except.ok (stepFive (fun w => smart_split fz w [] 85) eng stp ents
            pre core suf (lowerL core)) := by
      unfold stepFour
      split
      · rename_i r hr
        rw [show keysOf ([] : Dict) = [] from rfl, hfz0 (lowerL core)] at hr
        cases hr
      · rfl
    have hbody : ∃ log, correct_word_body fz (fun w => smart_split fz w [] 85)
        [] th eng stp ents word = Except.ok (pre ++ core ++ suf, log) := by
      unfold correct_word_body
      simp only [hm, hcd]
      unfold stepsTwoOn
      split
      · exact ⟨[], rfl⟩
      · split
        · rename_i corrected hlk
          rw [show List.lookup (lowerL core) ([] : Dict) = none from rfl] at hlk
          cases hlk
        · refine ⟨(stepFive (fun w => smart_split fz w [] 85) eng stp ents
            pre core suf (lowerL core)).snd, ?_⟩
          rw [h4, h5e]
    obtain ⟨log, hb⟩ := hbody
    unfold correct_word correct_word_gen
    rw [hb]
    exact hw

/-- C3 (amended): with an empty dictionary, `correct_transcript`
returns the input with its whitespace collapsed to single spaces and
every token unchanged, provided each token is either rejected by the
token pattern or fully consumed by it with a core that does not match
the dose grammar.  (Dose-grammar tokens are still rewritten — spaces
inserted, medication part lowercased — and a token with a second word
run after internal punctuation is truncated, as the counterexample
shows.) -/
theorem c3_empty_dict_roundtrip (fz : Matcher)
    (getEnts : List Char → List (List Char)) (eng stp : List Char → Bool)
    (th : ℚ) (text : List Char)
    (hfz0 : ∀ q, fz q [] = none)
    (hall : (pySplit text).all tokenUntouched = true) :
    (correct_transcript fz getEnts eng stp text [] th).fst
      = List.intercalate [' '] (pySplit text) := by
  have hmap : ∀ l : List (List Char), l.all tokenUntouched = true →
      (l.map (fun w => correct_word fz [] th eng stp (getEnts text) w)).map
          Prod.fst = l := by
    intro l
    induction l with
    | nil => intro _; rfl
    | cons x xs ih =>
      intro hall'
      simp only [List.all_cons, Bool.and_eq_true] at hall'
      simp only [List.map_cons]
      rw [correct_word_empty_dict fz th eng stp (getEnts text) x hfz0 hall'.1,
        ih hall'.2]
  unfold correct_transcript
  simp only []
  rw [hmap (pySplit text) hall]

theorem c3_empty_dict_roundtrip_witness :
    (correct_transcript mnone entsNone ffb ffb "Take  two pills!".data [] 85).fst
      = "Take two pills!".data := by
  have h := c3_empty_dict_roundtrip mnone entsNone ffb ffb 85
    "Take  two pills!".data (fun q => rfl) (by decide)
  rw [h]
  decide

theorem c3_counterexample :
    (correct_transcript mnone entsNone ffb ffb "ab5mg x.y".data [] 85).fst
        = "ab 5mg x.".data ∧
      "ab 5mg x.".data ≠ "ab5mg x.y".data :=
  ⟨by decide, by decide⟩

end SttServer

